import Mathlib

/-!
Verification development for the pose-graph synchronization and robust
similarity-alignment core of the `salve` repository.

Embedded source files:
* `src/spanning_tree.py` — `greedily_construct_st`, `greedily_construct_st_Sim2`.
* `src/afp/utils/ransac.py` — `ransac_align_poses_sim3_ignore_missing`,
  `compute_pose_errors_3d`.

External collaborators that are not part of the repository sources
(`networkx` shortest paths, `gtsfm` graph utilities and the closed-form
Sim(3) fit, and `salve/common/sim2.py` which is absent from `src/`) are
modelled from the specification; each such definition carries a doc
comment saying so.
-/

namespace Salve

instance {ε α : Type _} [DecidableEq ε] [DecidableEq α] : DecidableEq (Except ε α) := fun x y =>
  match x, y with
  | .ok a, .ok b =>
      if h : a = b then isTrue (by rw [h]) else isFalse (by intro hc; cases hc; exact h rfl)
  | .ok _, .error _ => isFalse (by intro hc; cases hc)
  | .error _, .ok _ => isFalse (by intro hc; cases hc)
  | .error e, .error f =>
      if h : e = f then isTrue (by rw [h]) else isFalse (by intro hc; cases hc; exact h rfl)

/-! ## Sorted node lists (Python `sorted` over a set of node ids) -/

/-- Insert a node id into a strictly ascending list, dropping duplicates. -/
def insSorted (x : ℕ) : List ℕ → List ℕ
  | [] => [x]
  | y :: ys => if x < y then x :: y :: ys else if x = y then y :: ys else y :: insSorted x ys

/-- Sort a list of node ids ascending with duplicates removed; models Python
`sorted` applied to a set of node ids. -/
def sortNodes (l : List ℕ) : List ℕ := l.foldr insSorted []

/-! ## Nodes and adjacency of the relative pose graph

The graph over the edge keys is handled in the source by `networkx` and by
`gtsfm.utils.graph`, which are external to the repository.  The node set,
adjacency, breadth-first traversal and connected components below are
modelled from the specification (§4.2). -/

/-- All endpoints of the edge keys, ascending and without duplicates. -/
def edgeNodes (ks : List (ℕ × ℕ)) : List ℕ :=
  sortNodes (ks.foldr (fun p acc => p.1 :: p.2 :: acc) [])

/-- Maximum node id over the edge keys (`max(max(i1, i2) for ...)`, with 0 on
an empty list; the callers guard against the empty list). -/
def maxNodeId (ks : List (ℕ × ℕ)) : ℕ :=
  ks.foldl (fun m p => max m (max p.1 p.2)) 0

/-- Neighbors of `v` in the undirected graph over the edge keys. -/
def adjOf (ks : List (ℕ × ℕ)) (v : ℕ) : List ℕ :=
  ks.filterMap (fun e => if e.1 = v then some e.2 else if e.2 = v then some e.1 else none)

/-! ## Breadth-first traversal with recorded paths

Models `networkx` BFS as used through `nx.shortest_path` and
`gtsfm.utils.graph.get_nodes_in_largest_connected_component`, neither of
which is repository code.  A state is a pair `(assigned, frontier)` of
association lists mapping a discovered node to the BFS path from the
source; each round expands the whole frontier one hop (level-synchronous
BFS, ties broken by traversal order as the specification documents). -/

/-- Keys (discovered nodes) of a BFS association list. -/
def keysOf (l : List (ℕ × List ℕ)) : List ℕ := l.map Prod.fst

/-- A BFS state: discovered nodes with their paths, and the current frontier. -/
abbrev BfsSt : Type := List (ℕ × List ℕ) × List (ℕ × List ℕ)

/-- Record neighbor `u` (reached by extending path `p`) unless already discovered. -/
def bfsInsert (p : List ℕ) (st : List (ℕ × List ℕ) × List (ℕ × List ℕ)) (u : ℕ) :
    List (ℕ × List ℕ) × List (ℕ × List ℕ) :=
  if u ∈ keysOf st.1 then st else (st.1 ++ [(u, p ++ [u])], st.2 ++ [(u, p ++ [u])])

/-- Expand a single frontier entry over its adjacency list. -/
def bfsExpand (adj : ℕ → List ℕ) (st : List (ℕ × List ℕ) × List (ℕ × List ℕ))
    (vp : ℕ × List ℕ) : List (ℕ × List ℕ) × List (ℕ × List ℕ) :=
  (adj vp.1).foldl (bfsInsert vp.2) st

/-- One BFS round: expand every frontier entry; the second component of the
result collects the newly discovered layer. -/
def bfsRound (adj : ℕ → List ℕ) (st : List (ℕ × List ℕ) × List (ℕ × List ℕ)) :
    List (ℕ × List ℕ) × List (ℕ × List ℕ) :=
  st.2.foldl (bfsExpand adj) (st.1, [])

/-- Iterate BFS rounds. -/
def bfsIter (adj : ℕ → List ℕ) : ℕ → List (ℕ × List ℕ) × List (ℕ × List ℕ) →
    List (ℕ × List ℕ) × List (ℕ × List ℕ)
  | 0, st => st
  | n + 1, st => bfsIter adj n (bfsRound adj st)

/-- BFS over the undirected graph of the edge keys, from source `s`: the
association list mapping each reachable node to its shortest path from `s`
(in discovery order).  The fuel `(edgeNodes ks).length + 1` rounds is enough
to reach a fixed point. -/
def bfsFrom (ks : List (ℕ × ℕ)) (s : ℕ) : List (ℕ × List ℕ) :=
  (bfsIter (adjOf ks) ((edgeNodes ks).length + 1) ([(s, [s])], [(s, [s])])).1

/-- Discovered nodes of the BFS from `s`. -/
def bfsKeys (ks : List (ℕ × ℕ)) (s : ℕ) : List ℕ := keysOf (bfsFrom ks s)

/-- Association-list lookup; models `nx.shortest_path` result retrieval. -/
def lookupA (l : List (ℕ × List ℕ)) (k : ℕ) : Option (List ℕ) :=
  (l.find? (fun e => e.1 == k)).map Prod.snd

/-- Reachability in the undirected graph of the edge keys. -/
def ReachK (ks : List (ℕ × ℕ)) : ℕ → ℕ → Prop :=
  Relation.ReflTransGen (fun x y => y ∈ adjOf ks x)

/-! ### BFS invariants -/

/-- Invariant carried through BFS rounds from source `s`. -/
structure BfsInv (ks : List (ℕ × ℕ)) (s : ℕ)
    (st : List (ℕ × List ℕ) × List (ℕ × List ℕ)) : Prop where
  nodup : (keysOf st.1).Nodup
  keys_sub : ∀ v ∈ keysOf st.1, v = s ∨ v ∈ edgeNodes ks
  front_sub : ∀ e ∈ st.2, e ∈ st.1
  expanded : ∀ e ∈ st.1, e ∈ st.2 ∨ ∀ u ∈ adjOf ks e.1, u ∈ keysOf st.1
  reach : ∀ e ∈ st.1, ReachK ks s e.1

/-! ## Connected components

Modelled from the spec: `gtsfm.utils.graph.get_nodes_in_largest_connected_component`
is not repository code.  Per the specification (§4.2) components are found by
union-find/BFS over the undirected edge set and the largest is returned,
ties broken by the smallest minimum node id; scanning start nodes in
ascending order and keeping the first component of maximal size realizes
that tie-break. -/

/-- Connected components, scanning candidate start nodes in ascending order. -/
def connectedComponents (ks : List (ℕ × ℕ)) : List (List ℕ) :=
  (edgeNodes ks).foldl
    (fun comps v => if comps.any (fun c => c.contains v) then comps else comps ++ [bfsKeys ks v])
    []

/-- First component of maximal size (strict improvement keeps the earlier one). -/
def pickLargest (comps : List (List ℕ)) : List ℕ :=
  comps.foldl (fun best c => if best.length < c.length then c else best) []

/-- Modelled from the spec: the largest connected component of the undirected
graph over the edge keys (`gtsfm.utils.graph.get_nodes_in_largest_connected_component`). -/
def get_nodes_in_largest_connected_component (ks : List (ℕ × ℕ)) : List ℕ :=
  pickLargest (connectedComponents ks)

/-! ## Transform algebra

The synchronizer is generic in the transform type: the source works with
2x2 numpy rotation matrices (`greedily_construct_st`: identity `np.eye(2)`,
composition `@`, inverse `.T`) and with `Sim2` objects
(`greedily_construct_st_Sim2`: identity Sim2, `.compose`, `.inverse()`).
`TransformOps` abstracts exactly those three operations. -/

structure TransformOps (M : Type) where
  compose : M → M → M
  inverse : M → M
  ident : M

/-- A 2x2 matrix with integer entries; models the numpy rotation-matrix
arrays used by `greedily_construct_st` (entries row-major `a b / c d`;
the quarter-turn rotations of the source's own tests are integral). -/
structure Mat2 where
  a : ℤ
  b : ℤ
  c : ℤ
  d : ℤ
deriving DecidableEq

/-- Matrix product, as numpy `@`. -/
def Mat2.mul (x y : Mat2) : Mat2 :=
  ⟨x.a * y.a + x.b * y.c, x.a * y.b + x.b * y.d,
   x.c * y.a + x.d * y.c, x.c * y.b + x.d * y.d⟩

/-- Transpose, as numpy `.T` (the inverse of a rotation matrix). -/
def Mat2.transpose (x : Mat2) : Mat2 := ⟨x.a, x.c, x.b, x.d⟩

/-- Identity, as `np.eye(2)`. -/
def Mat2.eye : Mat2 := ⟨1, 0, 0, 1⟩

def Mat2.ops : TransformOps Mat2 := ⟨Mat2.mul, Mat2.transpose, Mat2.eye⟩

/-- Modelled from the spec: a Sim(2) transform (rotation, translation,
positive scale) as in `salve/common/sim2.py`, which is not under `src/`.
The rotation is stored by its matrix entries cosine `rc` and sine `rs`
(matrix `[[rc, -rs], [rs, rc]]`); composition and inverse follow §4.1:
`R = R1*R2`, `t = t1 + s1*R1*t2`, `s = s1*s2`, and
`invert(T) = (R^T, -(1/s)*R^T*t, 1/s)`. -/
structure Sim2Q where
  rc : ℚ
  rs : ℚ
  tx : ℚ
  ty : ℚ
  sc : ℚ
deriving DecidableEq

def Sim2Q.compose (T1 T2 : Sim2Q) : Sim2Q :=
  { rc := T1.rc * T2.rc - T1.rs * T2.rs
    rs := T1.rs * T2.rc + T1.rc * T2.rs
    tx := T1.tx + T1.sc * (T1.rc * T2.tx - T1.rs * T2.ty)
    ty := T1.ty + T1.sc * (T1.rs * T2.tx + T1.rc * T2.ty)
    sc := T1.sc * T2.sc }

def Sim2Q.inv (T : Sim2Q) : Sim2Q :=
  { rc := T.rc
    rs := -T.rs
    tx := -(1 / T.sc) * (T.rc * T.tx + T.rs * T.ty)
    ty := -(1 / T.sc) * (-T.rs * T.tx + T.rc * T.ty)
    sc := 1 / T.sc }

/-- The identity `Sim2(R=np.eye(2), t=np.zeros(2), s=1.0)`. -/
def Sim2Q.one : Sim2Q := ⟨1, 0, 0, 0, 1⟩

def Sim2Q.ops : TransformOps Sim2Q := ⟨Sim2Q.compose, Sim2Q.inv, Sim2Q.one⟩

/-! ## Spanning-tree synchronizer (`src/spanning_tree.py`)

Edges are an association list from canonical keys `(i1, i2)` to the stored
transform `i2_T_i1` ("i1 into i2's frame"); it embeds the Python dict
`i2Si1_dict` / `i2Ri1_dict` (at most one entry per key). -/

/-- Dictionary access `i2Si1_dict[(i1, i2)]`; `none` models a `KeyError`. -/
def edgeLookup {M : Type} (edges : List ((ℕ × ℕ) × M)) (k : ℕ × ℕ) : Option M :=
  (edges.find? (fun e => e.1 == k)).map Prod.snd

/-- Step transform for a consecutive path pair `(i1, i2)`
(`spanning_tree.py` lines 56-60 and 110-114): when `i1 < i2` the stored
edge at `(i1, i2)` is inverted, otherwise the edge at `(i2, i1)` is used
directly. -/
def stepTransform {M : Type} (ops : TransformOps M) (edges : List ((ℕ × ℕ) × M))
    (i1 i2 : ℕ) : Option M :=
  if i1 < i2 then (edgeLookup edges (i1, i2)).map ops.inverse
  else edgeLookup edges (i2, i1)

/-- Accumulate the step transforms of consecutive path pairs by composition,
starting from the identity (`wSi = wSi.compose(i1Si2)` over
`zip(path[:-1], path[1:])`).  A missing edge (`KeyError`, impossible for a
BFS path of the graph built from the same edges) leaves the accumulator. -/
def walkPath {M : Type} (ops : TransformOps M) (edges : List ((ℕ × ℕ) × M))
    (path : List ℕ) : M :=
  (path.zip path.tail).foldl
    (fun wSi pr =>
      match stepTransform ops edges pr.1 pr.2 with
      | some t => ops.compose wSi t
      | none => wSi)
    ops.ident

/-- Loop body of the synchronizer: look up the BFS shortest path to `dst_node`
and store the walked pose at its slot.  The `none` branch models the
(unreachable, since every component node has a BFS path from the origin)
`nx.shortest_path` failure. -/
def stStep {M : Type} (ops : TransformOps M) (edges : List ((ℕ × ℕ) × M))
    (paths : List (ℕ × List ℕ)) (acc : List (Option M)) (d : ℕ) : List (Option M) :=
  match lookupA paths d with
  | some path => acc.set d (some (walkPath ops edges path))
  | none => acc

/-- Core of both synchronizer variants, after their (differing) empty-edge
behavior: find the largest connected component, sort it, take its smallest
node as origin with the identity pose, and propagate each remaining
component node's pose along its BFS shortest path from the origin
(`spanning_tree.py` lines 85-121 and 34-67). -/
def stAssemble {M : Type} (ops : TransformOps M) (edges : List ((ℕ × ℕ) × M)) :
    List (Option M) :=
  let ks := edges.map Prod.fst
  let num_nodes := maxNodeId ks + 1
  let cc_nodes := sortNodes (get_nodes_in_largest_connected_component ks)
  match cc_nodes with
  | [] => List.replicate num_nodes none
  | origin :: rest =>
      let paths := bfsFrom ks origin
      let init := (List.replicate num_nodes none).set origin (some ops.ident)
      rest.foldl (stStep ops edges paths) init

/-- Embeds `greedily_construct_st`.  The source is specialized to 2x2
rotation matrices (`Mat2.ops`); the transform operations are abstracted.
On an empty dict the Python `max([...])` raises a `ValueError`, modelled
as the error result. -/
inductive SyncError
  | valueError
deriving DecidableEq

def greedily_construct_st {M : Type} (ops : TransformOps M)
    (edges : List ((ℕ × ℕ) × M)) : Except SyncError (List (Option M)) :=
  if edges.isEmpty then Except.error SyncError.valueError
  else Except.ok (stAssemble ops edges)

/-- Embeds `greedily_construct_st_Sim2`.  The source is specialized to
`Sim2` (`Sim2Q.ops`); the transform operations are abstracted.  An empty
edge dict returns `None` (lines 82-83). -/
def greedily_construct_st_Sim2 {M : Type} (ops : TransformOps M)
    (edges : List ((ℕ × ℕ) × M)) : Option (List (Option M)) :=
  if edges.isEmpty then none
  else some (stAssemble ops edges)

/-! ### Spec-side formulations for claim C1 -/

/-- Origin node as the specification describes it: smallest node id of the
largest connected component. -/
def specOrigin (ks : List (ℕ × ℕ)) : ℕ :=
  (sortNodes (get_nodes_in_largest_connected_component ks)).headD 0

/-- The BFS shortest path from the origin to `d`. -/
def specShortestPath (ks : List (ℕ × ℕ)) (d : ℕ) : Option (List ℕ) :=
  lookupA (bfsFrom ks (specOrigin ks)) d

/-- Step rule exactly as claim C1 words it: fetch the edge at the canonical
key; use it directly when `a < b`, and its inverse when `a > b`. -/
def stepClaimed {M : Type} (ops : TransformOps M) (edges : List ((ℕ × ℕ) × M))
    (a b : ℕ) : Option M :=
  if a < b then edgeLookup edges (a, b)
  else (edgeLookup edges (b, a)).map ops.inverse

/-- Step rule of the amended claim: use the inverse of the canonical edge
when `a < b`, and the edge directly when `a > b`. -/
def stepAmended {M : Type} (ops : TransformOps M) (edges : List ((ℕ × ℕ) × M))
    (a b : ℕ) : Option M :=
  if a < b then (edgeLookup edges (a, b)).map ops.inverse
  else edgeLookup edges (b, a)

/-- Accumulate a step rule over the consecutive pairs of a path, in path
order, starting from the identity. -/
def pathCompose {M : Type} (ops : TransformOps M) (step : ℕ → ℕ → Option M)
    (path : List ℕ) : M :=
  (path.zip path.tail).foldl
    (fun acc pr =>
      match step pr.1 pr.2 with
      | some t => ops.compose acc t
      | none => acc)
    ops.ident

/-- Destination pose according to claim C1 as stated. -/
def specPoseClaimed {M : Type} (ops : TransformOps M) (edges : List ((ℕ × ℕ) × M))
    (d : ℕ) : Option M :=
  (specShortestPath (edges.map Prod.fst) d).map (pathCompose ops (stepClaimed ops edges))

/-- Destination pose according to the amended claim C1. -/
def specPoseAmended {M : Type} (ops : TransformOps M) (edges : List ((ℕ × ℕ) × M))
    (d : ℕ) : Option M :=
  (specShortestPath (edges.map Prod.fst) d).map (pathCompose ops (stepAmended ops edges))

/-- Connectivity of the input graph: every endpoint is discovered by BFS
from the smallest node. -/
def GraphConnected (ks : List (ℕ × ℕ)) : Prop :=
  ∀ v ∈ edgeNodes ks, v ∈ bfsKeys ks ((edgeNodes ks).headD 0)

instance (ks : List (ℕ × ℕ)) : Decidable (GraphConnected ks) := by
  unfold GraphConnected
  exact List.decidableBAll _ _

/-! ## RANSAC Sim(3) aligner (`src/afp/utils/ransac.py`)

Pose sets are fixed-length lists of optional poses; the pose type `P` and
the similarity type `S` are abstract, as are the numeric ingredients that
live in external `gtsfm` code: the closed-form fit (parameter `fit`) and
the pointwise rotation-angle and translation-distance errors (parameters
`rotAngle`, `transDist`, with exact rationals in place of floats).
Python float values that can be NaN are `Option ℚ` (`none` = NaN);
the best-so-far errors start at infinity and are `WithTop ℚ`. -/

def DEFAULT_DELETE_FRAC : ℚ := 33 / 100

inductive AlignError
  | indexMismatch
deriving DecidableEq

/-- Modelled from the spec: the external closed-form similarity fit
`gtsfm.utils.geometry_comparisons.align_poses_sim3_ignore_missing` is not
repository code.  Per the specification (§4.4 contract, §7 `IndexMismatch`)
it requires equal-length pose sets and fails fast on a mismatch, before any
fitting; the numeric fit itself is the abstract parameter `fit`. -/
def alignChecked {P S : Type} (fit : List (Option P) → List (Option P) → List (Option P) × S)
    (a b : List (Option P)) : Except AlignError (List (Option P) × S) :=
  if a.length = b.length then Except.ok (fit a b) else Except.error AlignError.indexMismatch

/-- `valid_idxs = [i for i, bTi in enumerate(bTi_list_est) if bTi is not None]`. -/
def validIdxs {P : Type} (est : List (Option P)) : List ℕ :=
  est.enum.filterMap (fun ib => if ib.2.isSome then some ib.1 else none)

/-- `np.mean` of a list of exact values: NaN (`none`) on an empty list,
otherwise the arithmetic mean. -/
def npMean (l : List ℚ) : Option ℚ :=
  if l.isEmpty then none else some (l.sum / l.length)

/-- Embeds `compute_pose_errors_3d`: walk the zipped pose lists, skip pairs
where either entry is missing, collect pointwise rotation and translation
errors, and return their means. -/
def compute_pose_errors_3d {P : Type} (rotAngle transDist : P → P → ℚ)
    (aTi_list_gt aligned_bTi_list_est : List (Option P)) : Option ℚ × Option ℚ :=
  let errs :=
    (aTi_list_gt.zip aligned_bTi_list_est).foldl
      (fun (acc : List ℚ × List ℚ) ab =>
        match ab.1, ab.2 with
        | some aTi, some aTi' => (acc.1 ++ [rotAngle aTi aTi'], acc.2 ++ [transDist aTi aTi'])
        | _, _ => acc)
      ([], [])
  (npMean errs.1, npMean errs.2)

/-- Spec-side characterization: the pointwise errors at the indices where
both lists have an entry. -/
def jointErrors {P : Type} (f : P → P → ℚ) (ref est : List (Option P)) : List ℚ :=
  (ref.zip est).filterMap
    (fun ab =>
      match ab.1, ab.2 with
      | some a, some b => some (f a b)
      | _, _ => none)

/-- Python `x <= y` where `x` may be NaN (`none`, on which every comparison
is false) and `y` may be infinity (`⊤`). -/
def floatLe (x : Option ℚ) (y : WithTop ℚ) : Bool :=
  match x with
  | none => false
  | some q => decide ((q : WithTop ℚ) ≤ y)

/-- Mutable state of the RANSAC loop (`best_*` variables, lines 28-31). -/
structure RState (P S : Type) where
  bestAligned : Option (List (Option P))
  bestS : Option S
  bestTrans : WithTop ℚ
  bestRot : WithTop ℚ

/-- `best_aligned_bTi_list_est = None; best_aSb = None;
best_trans_error = float("inf"); best_rot_error = float("inf")`. -/
def initRState (P S : Type) : RState P S := ⟨none, none, ⊤, ⊤⟩

/-- Candidate-acceptance step (lines 61-67): accept as the new best exactly
when both errors compare `<=` against the current bests (false on NaN).
The `getD` fallbacks are unreachable: an accepted error is never NaN. -/
def acceptTrial {P S : Type} (st : RState P S) (aligned : List (Option P)) (aSb : S)
    (rot_error trans_error : Option ℚ) : RState P S :=
  if floatLe trans_error st.bestTrans && floatLe rot_error st.bestRot then
    { bestAligned := some aligned
      bestS := some aSb
      bestTrans := (trans_error.map (fun q => (q : WithTop ℚ))).getD st.bestTrans
      bestRot := (rot_error.map (fun q => (q : WithTop ℚ))).getD st.bestRot }
  else st

/-- One RANSAC trial (lines 43-67): deep-copy the inputs (pure values), null
the drawn indices out of the estimate copy, fit on the subsets, score the
candidate against the full reference, and maybe accept it.  `draw` is the
trial's `np.random.choice(valid_idxs, size=num_to_delete, replace=False)`
output. -/
def ransacTrial {P S : Type} (fit : List (Option P) → List (Option P) → List (Option P) × S)
    (rotAngle transDist : P → P → ℚ) (aTi_list_ref bTi_list_est : List (Option P))
    (draw : List ℕ) (st : RState P S) : Except AlignError (RState P S) :=
  let aTi_list_ref_subset := aTi_list_ref
  let bTi_list_est_subset := draw.foldl (fun l i => l.set i none) bTi_list_est
  (alignChecked fit aTi_list_ref_subset bTi_list_est_subset).map
    (fun res =>
      let errs := compute_pose_errors_3d rotAngle transDist aTi_list_ref res.1
      acceptTrial st res.1 res.2 errs.1 errs.2)

/-- The RANSAC loop, `for _ in range(num_iters)`. -/
def ransacLoop {P S : Type} (fit : List (Option P) → List (Option P) → List (Option P) × S)
    (rotAngle transDist : P → P → ℚ) (aTi_list_ref bTi_list_est : List (Option P))
    (draws : ℕ → List ℕ) (num_iters : ℕ) : Except AlignError (RState P S) :=
  (List.range num_iters).foldlM
    (fun st t => ransacTrial fit rotAngle transDist aTi_list_ref bTi_list_est (draws t) st)
    (initRState P S)

/-- Embeds `ransac_align_poses_sim3_ignore_missing` (lines 15-69).  The
degenerate branch (`len(valid_idxs) - num_to_delete <= 3`, in ℤ as in
Python) returns a single full-list fit; otherwise the result is the best
state of `num_iters` RANSAC trials. -/
def ransac_align_poses_sim3_ignore_missing {P S : Type}
    (fit : List (Option P) → List (Option P) → List (Option P) × S)
    (rotAngle transDist : P → P → ℚ) (draws : ℕ → List ℕ) (num_iters : ℕ)
    (delete_frac : ℚ) (aTi_list_ref bTi_list_est : List (Option P)) :
    Except AlignError (Option (List (Option P)) × Option S) :=
  let valid_idxs := validIdxs bTi_list_est
  let num_to_delete : ℤ := ⌈delete_frac * valid_idxs.length⌉
  if (valid_idxs.length : ℤ) - num_to_delete ≤ 3 then
    (alignChecked fit aTi_list_ref bTi_list_est).map
      (fun res => (some res.1, some res.2))
  else
    (ransacLoop fit rotAngle transDist aTi_list_ref bTi_list_est draws num_iters).map
      (fun st => (st.bestAligned, st.bestS))

/-! ## Concrete inputs used by counterexamples and witnesses -/

/-- The quarter-turn rotation matrix `rotmat2d(90)` (as in the source's own
tests); its transpose is its inverse and differs from it. -/
def rot90 : Mat2 := ⟨0, -1, 1, 0⟩

/-- A single canonical edge `(0, 1)` storing the quarter turn. -/
def eC1 : List ((ℕ × ℕ) × Mat2) := [((0, 1), rot90)]

/-- Trivial closed-form fit used to instantiate the abstract external fit in
witnesses: return the estimate list unchanged with a unit similarity. -/
def unitFit : List (Option Unit) → List (Option Unit) → List (Option Unit) × Unit :=
  fun _ b => (b, ())

/-- Zero pointwise error, for witnesses. -/
def zeroErr : Unit → Unit → ℚ := fun _ _ => 0

/-- Draws nothing, for witnesses. -/
def noDraws : ℕ → List ℕ := fun _ => []

/-- Draws index 0 in every trial, for witnesses. -/
def zeroDraws : ℕ → List ℕ := fun _ => [0]

/-! ## Theorems -/

/-! ## Generic fold invariants -/

theorem foldl_inv {α β : Type _} (P : α → Prop) (f : α → β → α) :
    ∀ (l : List β) (x : α), P x → (∀ y b, b ∈ l → P y → P (f y b)) → P (l.foldl f x) := by
  intro l
  induction l with
  | nil => intro x hx _; exact hx
  | cons b t ih =>
      intro x hx hf
      exact ih (f x b) (hf x b (List.mem_cons_self _ _) hx)
        (fun y c hc hy => hf y c (List.mem_cons_of_mem _ hc) hy)

theorem mem_insSorted {a x : ℕ} : ∀ {l : List ℕ}, a ∈ insSorted x l ↔ a = x ∨ a ∈ l := by
  intro l
  induction l with
  | nil => simp [insSorted]
  | cons y ys ih =>
      by_cases h1 : x < y
      · simp [insSorted, h1]
      · by_cases h2 : x = y
        · subst h2
          simp only [insSorted, if_neg h1, if_pos rfl]
          constructor
          · intro h; exact Or.inr h
          · rintro (rfl | h)
            · exact List.mem_cons_self _ _
            · exact h
        · simp only [insSorted, if_neg h1, if_neg h2, List.mem_cons]
          rw [ih]
          tauto

theorem sorted_insSorted {x : ℕ} :
    ∀ {l : List ℕ}, l.Sorted (· < ·) → (insSorted x l).Sorted (· < ·) := by
  intro l
  induction l with
  | nil => intro _; simp [insSorted]
  | cons y ys ih =>
      intro hs
      rcases List.sorted_cons.mp hs with ⟨hy, hys⟩
      by_cases h1 : x < y
      · simp only [insSorted, if_pos h1]
        exact List.sorted_cons.mpr ⟨by
          intro b hb
          rcases List.mem_cons.mp hb with rfl | hb
          · exact h1
          · exact lt_trans h1 (hy b hb), hs⟩
      · by_cases h2 : x = y
        · simpa [insSorted, h1, h2] using hs
        · have hxy : y < x := by omega
          simp only [insSorted, if_neg h1, if_neg h2]
          refine List.sorted_cons.mpr ⟨?_, ih hys⟩
          intro b hb
          rcases mem_insSorted.mp hb with rfl | hb
          · exact hxy
          · exact hy b hb

theorem sorted_sortNodes (l : List ℕ) : (sortNodes l).Sorted (· < ·) := by
  induction l with
  | nil => simp [sortNodes]
  | cons a t ih => exact sorted_insSorted ih

theorem mem_sortNodes {a : ℕ} : ∀ {l : List ℕ}, a ∈ sortNodes l ↔ a ∈ l := by
  intro l
  induction l with
  | nil => simp [sortNodes]
  | cons b t ih =>
      simp only [sortNodes, List.foldr_cons, List.mem_cons]
      rw [mem_insSorted]
      constructor
      · rintro (h | h)
        · exact Or.inl h
        · exact Or.inr (ih.mp h)
      · rintro (h | h)
        · exact Or.inl h
        · exact Or.inr (ih.mpr h)

theorem nodup_sortNodes (l : List ℕ) : (sortNodes l).Nodup :=
  (sorted_sortNodes l).nodup

theorem head_le_of_sorted {x : ℕ} {t : List ℕ} (hs : (x :: t).Sorted (· < ·)) :
    ∀ y ∈ x :: t, x ≤ y := by
  intro y hy
  rcases List.mem_cons.mp hy with rfl | hy
  · exact le_refl _
  · exact le_of_lt ((List.sorted_cons.mp hs).1 y hy)

theorem head_not_mem_tail {x : ℕ} {t : List ℕ} (hs : (x :: t).Sorted (· < ·)) : x ∉ t := by
  intro hx
  exact absurd ((List.sorted_cons.mp hs).1 x hx) (lt_irrefl x)

theorem mem_edgeNodes {v : ℕ} {ks : List (ℕ × ℕ)} :
    v ∈ edgeNodes ks ↔ ∃ p ∈ ks, p.1 = v ∨ p.2 = v := by
  unfold edgeNodes
  rw [mem_sortNodes]
  induction ks with
  | nil => simp
  | cons q t ih =>
      simp only [List.foldr_cons, List.mem_cons, ih]
      constructor
      · rintro (rfl | rfl | ⟨p, hp, h⟩)
        · exact ⟨q, Or.inl rfl, Or.inl rfl⟩
        · exact ⟨q, Or.inl rfl, Or.inr rfl⟩
        · exact ⟨p, Or.inr hp, h⟩
      · rintro ⟨p, rfl | hp, h⟩
        · rcases h with h | h
          · exact Or.inl h.symm
          · exact Or.inr (Or.inl h.symm)
        · exact Or.inr (Or.inr ⟨p, hp, h⟩)

theorem le_foldl_max (ks : List (ℕ × ℕ)) (m : ℕ) :
    m ≤ ks.foldl (fun m p => max m (max p.1 p.2)) m := by
  induction ks generalizing m with
  | nil => exact le_refl _
  | cons q t ih => exact le_trans (le_max_left _ _) (ih _)

theorem mem_le_maxNodeId {p : ℕ × ℕ} {ks : List (ℕ × ℕ)} (hp : p ∈ ks) :
    p.1 ≤ maxNodeId ks ∧ p.2 ≤ maxNodeId ks := by
  unfold maxNodeId
  generalize (0 : ℕ) = m
  induction ks generalizing m with
  | nil => cases hp
  | cons q t ih =>
      rcases List.mem_cons.mp hp with rfl | hp
      · constructor
        · exact le_trans (le_trans (le_max_left _ _) (le_max_right m _)) (le_foldl_max t _)
        · exact le_trans (le_trans (le_max_right _ _) (le_max_right m _)) (le_foldl_max t _)
      · exact ih hp _

theorem mem_edgeNodes_le {v : ℕ} {ks : List (ℕ × ℕ)} (hv : v ∈ edgeNodes ks) :
    v ≤ maxNodeId ks := by
  rcases mem_edgeNodes.mp hv with ⟨p, hp, h | h⟩
  · exact h ▸ (mem_le_maxNodeId hp).1
  · exact h ▸ (mem_le_maxNodeId hp).2

theorem mem_adjOf {u v : ℕ} {ks : List (ℕ × ℕ)} :
    u ∈ adjOf ks v ↔ (v, u) ∈ ks ∨ (u, v) ∈ ks := by
  unfold adjOf
  rw [List.mem_filterMap]
  constructor
  · rintro ⟨e, he, hsome⟩
    by_cases h1 : e.1 = v
    · rw [if_pos h1] at hsome
      have h2 := Option.some.inj hsome
      left
      have : e = (v, u) := by
        obtain ⟨a, b⟩ := e
        simp only at h1 h2
        rw [h1, h2]
      exact this ▸ he
    · rw [if_neg h1] at hsome
      by_cases h2 : e.2 = v
      · rw [if_pos h2] at hsome
        have h3 := Option.some.inj hsome
        right
        have : e = (u, v) := by
          obtain ⟨a, b⟩ := e
          simp only at h2 h3
          rw [h2, h3]
        exact this ▸ he
      · rw [if_neg h2] at hsome
        cases hsome
  · rintro (h | h)
    · exact ⟨(v, u), h, by simp⟩
    · by_cases huv : u = v
      · exact ⟨(u, v), h, by simp [huv]⟩
      · exact ⟨(u, v), h, by simp [huv]⟩

theorem adjOf_subset_edgeNodes {u v : ℕ} {ks : List (ℕ × ℕ)} (h : u ∈ adjOf ks v) :
    u ∈ edgeNodes ks := by
  rcases mem_adjOf.mp h with h | h
  · exact mem_edgeNodes.mpr ⟨(v, u), h, Or.inr rfl⟩
  · exact mem_edgeNodes.mpr ⟨(u, v), h, Or.inl rfl⟩

theorem adjOf_comm {u v : ℕ} {ks : List (ℕ × ℕ)} :
    u ∈ adjOf ks v ↔ v ∈ adjOf ks u := by
  rw [mem_adjOf, mem_adjOf]
  tauto

theorem ReachK_symm {ks : List (ℕ × ℕ)} {a b : ℕ} (h : ReachK ks a b) : ReachK ks b a := by
  induction h with
  | refl => exact Relation.ReflTransGen.refl
  | tail _ hadj ih =>
      exact Relation.ReflTransGen.trans (Relation.ReflTransGen.single (adjOf_comm.mp hadj)) ih

theorem ReachK_trans {ks : List (ℕ × ℕ)} {a b c : ℕ} (h1 : ReachK ks a b)
    (h2 : ReachK ks b c) : ReachK ks a c :=
  Relation.ReflTransGen.trans h1 h2

theorem keysOf_append (l1 l2 : List (ℕ × List ℕ)) :
    keysOf (l1 ++ l2) = keysOf l1 ++ keysOf l2 := by
  simp [keysOf]

theorem bfsInsert_fst_mono {p : List ℕ} {st : List (ℕ × List ℕ) × List (ℕ × List ℕ)} {u : ℕ}
    {e : ℕ × List ℕ} (he : e ∈ st.1) : e ∈ (bfsInsert p st u).1 := by
  unfold bfsInsert
  split
  · exact he
  · exact List.mem_append_left _ he

theorem bfsInsert_keys_mono {p : List ℕ} {st : List (ℕ × List ℕ) × List (ℕ × List ℕ)} {u k : ℕ}
    (hk : k ∈ keysOf st.1) : k ∈ keysOf (bfsInsert p st u).1 := by
  rcases List.mem_map.mp hk with ⟨e, he, rfl⟩
  exact List.mem_map.mpr ⟨e, bfsInsert_fst_mono he, rfl⟩

theorem bfsExpand_fst_mono {adj : ℕ → List ℕ} {st : List (ℕ × List ℕ) × List (ℕ × List ℕ)}
    {vp e : ℕ × List ℕ} (he : e ∈ st.1) : e ∈ (bfsExpand adj st vp).1 := by
  unfold bfsExpand
  exact foldl_inv (fun x : BfsSt => e ∈ x.1) (bfsInsert vp.2) (adj vp.1) st he
    (fun y b _ hy => bfsInsert_fst_mono hy)

theorem bfsExpand_keys_mono {adj : ℕ → List ℕ} {st : List (ℕ × List ℕ) × List (ℕ × List ℕ)}
    {vp : ℕ × List ℕ} {k : ℕ} (hk : k ∈ keysOf st.1) : k ∈ keysOf (bfsExpand adj st vp).1 := by
  rcases List.mem_map.mp hk with ⟨e, he, rfl⟩
  exact List.mem_map.mpr ⟨e, bfsExpand_fst_mono he, rfl⟩

theorem bfsRound_fst_mono {adj : ℕ → List ℕ} {st : List (ℕ × List ℕ) × List (ℕ × List ℕ)}
    {e : ℕ × List ℕ} (he : e ∈ st.1) : e ∈ (bfsRound adj st).1 := by
  unfold bfsRound
  exact foldl_inv (fun x : BfsSt => e ∈ x.1) (bfsExpand adj) st.2 (st.1, []) he
    (fun y b _ hy => bfsExpand_fst_mono hy)

/-- During a round, the assigned list only grows by exactly the new frontier. -/
theorem bfsRound_fst_eq {adj : ℕ → List ℕ} (st : List (ℕ × List ℕ) × List (ℕ × List ℕ)) :
    (bfsRound adj st).1 = st.1 ++ (bfsRound adj st).2 := by
  unfold bfsRound
  refine foldl_inv (fun x : BfsSt => x.1 = st.1 ++ x.2) (bfsExpand adj) st.2 (st.1, [])
    (by simp) ?_
  intro y b _ hy
  unfold bfsExpand
  refine foldl_inv (fun x : BfsSt => x.1 = st.1 ++ x.2) (bfsInsert b.2) (adj b.1) y hy ?_
  intro z u _ hz
  unfold bfsInsert
  split
  · exact hz
  · simp [hz]

theorem bfsIter_fst_mono {adj : ℕ → List ℕ} {e : ℕ × List ℕ} :
    ∀ (n : ℕ) (st : List (ℕ × List ℕ) × List (ℕ × List ℕ)),
      e ∈ st.1 → e ∈ (bfsIter adj n st).1 := by
  intro n
  induction n with
  | zero => intro st h; exact h
  | succ m ih => intro st h; exact ih _ (bfsRound_fst_mono h)

/-- A round on an empty frontier does nothing. -/
theorem bfsRound_nil {adj : ℕ → List ℕ} {a : List (ℕ × List ℕ)} :
    bfsRound adj (a, []) = (a, []) := rfl

theorem bfsIter_nil {adj : ℕ → List ℕ} {a : List (ℕ × List ℕ)} :
    ∀ n, bfsIter adj n (a, []) = (a, []) := by
  intro n
  induction n with
  | zero => rfl
  | succ m ih => rw [bfsIter, bfsRound_nil, ih]

theorem bfsIter_stable {adj : ℕ → List ℕ} {st : BfsSt} (h : st.2 = []) :
    ∀ n, bfsIter adj n st = st := by
  obtain ⟨a, b⟩ := st
  simp only at h
  subst h
  exact bfsIter_nil

theorem bfsInsert_nodup {p : List ℕ} {st : BfsSt} {u : ℕ} (h : (keysOf st.1).Nodup) :
    (keysOf (bfsInsert p st u).1).Nodup := by
  unfold bfsInsert
  by_cases hmem : u ∈ keysOf st.1
  · rw [if_pos hmem]; exact h
  · rw [if_neg hmem, keysOf_append]
    refine List.Nodup.append h (by simp [keysOf]) ?_
    intro a ha hb
    simp [keysOf] at hb
    subst hb
    exact hmem ha

theorem bfsExpand_nodup {adj : ℕ → List ℕ} {st : BfsSt} {vp : ℕ × List ℕ}
    (h : (keysOf st.1).Nodup) : (keysOf (bfsExpand adj st vp).1).Nodup := by
  unfold bfsExpand
  exact foldl_inv (fun x : BfsSt => (keysOf x.1).Nodup) (bfsInsert vp.2) (adj vp.1) st h
    (fun y b _ hy => bfsInsert_nodup hy)

theorem bfsRound_nodup {adj : ℕ → List ℕ} {st : BfsSt} (h : (keysOf st.1).Nodup) :
    (keysOf (bfsRound adj st).1).Nodup := by
  unfold bfsRound
  exact foldl_inv (fun x : BfsSt => (keysOf x.1).Nodup) (bfsExpand adj) st.2 (st.1, []) h
    (fun y b _ hy => bfsExpand_nodup hy)

theorem bfsRound_keys_sub {ks : List (ℕ × ℕ)} {s : ℕ} {st : BfsSt}
    (h : ∀ v ∈ keysOf st.1, v = s ∨ v ∈ edgeNodes ks) :
    ∀ v ∈ keysOf (bfsRound (adjOf ks) st).1, v = s ∨ v ∈ edgeNodes ks := by
  unfold bfsRound
  refine foldl_inv (fun x : BfsSt => ∀ v ∈ keysOf x.1, v = s ∨ v ∈ edgeNodes ks)
    (bfsExpand (adjOf ks)) st.2 (st.1, []) h ?_
  intro y vp _ hy
  unfold bfsExpand
  refine foldl_inv (fun x : BfsSt => ∀ v ∈ keysOf x.1, v = s ∨ v ∈ edgeNodes ks)
    (bfsInsert vp.2) (adjOf ks vp.1) y hy ?_
  intro z u hu hz v hv
  unfold bfsInsert at hv
  by_cases hmem : u ∈ keysOf z.1
  · rw [if_pos hmem] at hv; exact hz v hv
  · rw [if_neg hmem, keysOf_append] at hv
    rcases List.mem_append.mp hv with hv | hv
    · exact hz v hv
    · simp [keysOf] at hv
      subst hv
      exact Or.inr (adjOf_subset_edgeNodes hu)

theorem bfsRound_front_sub {adj : ℕ → List ℕ} (st : BfsSt) :
    ∀ e ∈ (bfsRound adj st).2, e ∈ (bfsRound adj st).1 := by
  intro e he
  rw [bfsRound_fst_eq]
  exact List.mem_append_right _ he

theorem bfsRound_reach {ks : List (ℕ × ℕ)} {s : ℕ} {st : BfsSt}
    (hfr : ∀ e ∈ st.2, ReachK ks s e.1) (h : ∀ e ∈ st.1, ReachK ks s e.1) :
    ∀ e ∈ (bfsRound (adjOf ks) st).1, ReachK ks s e.1 := by
  unfold bfsRound
  refine foldl_inv (fun x : BfsSt => ∀ e ∈ x.1, ReachK ks s e.1)
    (bfsExpand (adjOf ks)) st.2 (st.1, []) h ?_
  intro y vp hvp hy
  have hreach : ReachK ks s vp.1 := hfr vp hvp
  unfold bfsExpand
  refine foldl_inv (fun x : BfsSt => ∀ e ∈ x.1, ReachK ks s e.1)
    (bfsInsert vp.2) (adjOf ks vp.1) y hy ?_
  intro z u hu hz e he
  unfold bfsInsert at he
  by_cases hmem : u ∈ keysOf z.1
  · rw [if_pos hmem] at he; exact hz e he
  · rw [if_neg hmem] at he
    rcases List.mem_append.mp he with he | he
    · exact hz e he
    · simp at he
      subst he
      exact Relation.ReflTransGen.tail hreach hu

theorem foldl_bfsInsert_present {p : List ℕ} :
    ∀ (us : List ℕ) (st : BfsSt), ∀ u ∈ us, u ∈ keysOf (us.foldl (bfsInsert p) st).1 := by
  intro us
  induction us with
  | nil => intro st u hu; cases hu
  | cons a t ih =>
      intro st u hu
      rcases List.mem_cons.mp hu with rfl | hu
      · have h1 : u ∈ keysOf (bfsInsert p st u).1 := by
          unfold bfsInsert
          by_cases hmem : u ∈ keysOf st.1
          · rw [if_pos hmem]; exact hmem
          · rw [if_neg hmem, keysOf_append]
            exact List.mem_append_right _ (by simp [keysOf])
        rw [List.foldl_cons]
        exact foldl_inv (fun x : BfsSt => u ∈ keysOf x.1) (bfsInsert p) t _ h1
          (fun y b _ hy => bfsInsert_keys_mono hy)
      · rw [List.foldl_cons]
        exact ih _ u hu

theorem bfsExpand_adj_present {adj : ℕ → List ℕ} {st : BfsSt} {vp : ℕ × List ℕ} :
    ∀ u ∈ adj vp.1, u ∈ keysOf (bfsExpand adj st vp).1 :=
  fun u hu => foldl_bfsInsert_present (adj vp.1) st u hu

theorem bfsRound_keys_mono {adj : ℕ → List ℕ} {st : BfsSt} {k : ℕ}
    (hk : k ∈ keysOf st.1) : k ∈ keysOf (bfsRound adj st).1 := by
  rcases List.mem_map.mp hk with ⟨e, he, rfl⟩
  exact List.mem_map.mpr ⟨e, bfsRound_fst_mono he, rfl⟩

theorem bfsRound_frontier_expanded {adj : ℕ → List ℕ} {st : BfsSt} :
    ∀ vp ∈ st.2, ∀ u ∈ adj vp.1, u ∈ keysOf (bfsRound adj st).1 := by
  unfold bfsRound
  suffices h : ∀ (fr : List (ℕ × List ℕ)) (x : BfsSt), ∀ vp ∈ fr, ∀ u ∈ adj vp.1,
      u ∈ keysOf (fr.foldl (bfsExpand adj) x).1 by
    exact fun vp hvp u hu => h st.2 (st.1, []) vp hvp u hu
  intro fr
  induction fr with
  | nil => intro x vp h; cases h
  | cons e t ih =>
      intro x vp hvp u hu
      rcases List.mem_cons.mp hvp with rfl | hvp
      · rw [List.foldl_cons]
        have h1 : u ∈ keysOf (bfsExpand adj x vp).1 := bfsExpand_adj_present u hu
        exact foldl_inv (fun y : BfsSt => u ∈ keysOf y.1) (bfsExpand adj) t _ h1
          (fun y b _ hy => bfsExpand_keys_mono hy)
      · rw [List.foldl_cons]
        exact ih _ vp hvp u hu

theorem bfsRound_expanded {ks : List (ℕ × ℕ)} {st : BfsSt}
    (hexp : ∀ e ∈ st.1, e ∈ st.2 ∨ ∀ u ∈ adjOf ks e.1, u ∈ keysOf st.1) :
    ∀ e ∈ (bfsRound (adjOf ks) st).1,
      e ∈ (bfsRound (adjOf ks) st).2 ∨
        ∀ u ∈ adjOf ks e.1, u ∈ keysOf (bfsRound (adjOf ks) st).1 := by
  intro e he
  rw [bfsRound_fst_eq] at he
  rcases List.mem_append.mp he with he | he
  · rcases hexp e he with hfr | hdone
    · exact Or.inr (bfsRound_frontier_expanded e hfr)
    · exact Or.inr (fun u hu => bfsRound_keys_mono (hdone u hu))
  · exact Or.inl he

theorem BfsInv_round {ks : List (ℕ × ℕ)} {s : ℕ} {st : BfsSt} (h : BfsInv ks s st) :
    BfsInv ks s (bfsRound (adjOf ks) st) where
  nodup := bfsRound_nodup h.nodup
  keys_sub := bfsRound_keys_sub h.keys_sub
  front_sub := bfsRound_front_sub st
  expanded := bfsRound_expanded h.expanded
  reach := bfsRound_reach (fun e he => h.reach e (h.front_sub e he)) h.reach

theorem BfsInv_iter {ks : List (ℕ × ℕ)} {s : ℕ} :
    ∀ (n : ℕ) {st : BfsSt}, BfsInv ks s st → BfsInv ks s (bfsIter (adjOf ks) n st) := by
  intro n
  induction n with
  | zero => intro st h; exact h
  | succ m ih => intro st h; exact ih (BfsInv_round h)

theorem BfsInv_init {ks : List (ℕ × ℕ)} {s : ℕ} : BfsInv ks s ([(s, [s])], [(s, [s])]) where
  nodup := by simp [keysOf]
  keys_sub := by
    intro v hv
    simp [keysOf] at hv
    subst hv
    exact Or.inl rfl
  front_sub := by intro e he; exact he
  expanded := by intro e he; exact Or.inl he
  reach := by
    intro e he
    simp at he
    subst he
    exact Relation.ReflTransGen.refl

/-- After enough rounds the discovered set is closed under adjacency. -/
theorem bfsIter_closed {ks : List (ℕ × ℕ)} {s : ℕ} (hs : s ∈ edgeNodes ks) :
    ∀ (fuel : ℕ) (st : BfsSt), BfsInv ks s st →
      (edgeNodes ks).length + 1 ≤ fuel + (keysOf st.1).length →
      ∀ v ∈ keysOf (bfsIter (adjOf ks) fuel st).1, ∀ u ∈ adjOf ks v,
        u ∈ keysOf (bfsIter (adjOf ks) fuel st).1 := by
  intro fuel
  induction fuel with
  | zero =>
      intro st hinv hlen v hv u hu
      exfalso
      have hsub : keysOf st.1 ⊆ edgeNodes ks := by
        intro a ha
        rcases hinv.keys_sub a ha with rfl | h
        · exact hs
        · exact h
      have hle := (hinv.nodup.subperm hsub).length_le
      omega
  | succ m ih =>
      intro st hinv hlen
      by_cases hfr : (bfsRound (adjOf ks) st).2 = []
      · have hst : bfsIter (adjOf ks) (m + 1) st = bfsRound (adjOf ks) st := by
          rw [bfsIter]
          exact bfsIter_stable hfr m
        rw [hst]
        intro v hv u hu
        have hinv' := BfsInv_round hinv
        rcases List.mem_map.mp hv with ⟨e, he, rfl⟩
        rcases hinv'.expanded e he with hin | hdone
        · rw [hfr] at hin
          cases hin
        · exact hdone u hu
      · rw [bfsIter]
        have hgrow : (keysOf (bfsRound (adjOf ks) st).1).length =
            (keysOf st.1).length + (keysOf (bfsRound (adjOf ks) st).2).length := by
          rw [bfsRound_fst_eq, keysOf_append, List.length_append]
        have hpos : 0 < (keysOf (bfsRound (adjOf ks) st).2).length := by
          rcases hcase : (bfsRound (adjOf ks) st).2 with _ | ⟨e, t⟩
          · exact absurd hcase hfr
          · simp [keysOf, hcase]
        exact ih (bfsRound (adjOf ks) st) (BfsInv_round hinv) (by omega)

theorem bfsFrom_inv {ks : List (ℕ × ℕ)} {s : ℕ} :
    BfsInv ks s (bfsIter (adjOf ks) ((edgeNodes ks).length + 1) ([(s, [s])], [(s, [s])])) :=
  BfsInv_iter _ BfsInv_init

theorem bfs_sound {ks : List (ℕ × ℕ)} {s d : ℕ} (hd : d ∈ bfsKeys ks s) : ReachK ks s d := by
  rcases List.mem_map.mp hd with ⟨e, he, rfl⟩
  exact bfsFrom_inv.reach e he

theorem bfs_closed {ks : List (ℕ × ℕ)} {s : ℕ} (hs : s ∈ edgeNodes ks) :
    ∀ v ∈ bfsKeys ks s, ∀ u ∈ adjOf ks v, u ∈ bfsKeys ks s := by
  intro v hv u hu
  exact bfsIter_closed hs ((edgeNodes ks).length + 1) ([(s, [s])], [(s, [s])]) BfsInv_init
    (by simp [keysOf]) v hv u hu

theorem bfs_start_mem {ks : List (ℕ × ℕ)} {s : ℕ} : s ∈ bfsKeys ks s :=
  List.mem_map.mpr ⟨(s, [s]), bfsIter_fst_mono _ _ (by simp), rfl⟩

theorem bfs_complete {ks : List (ℕ × ℕ)} {s d : ℕ} (hs : s ∈ edgeNodes ks)
    (h : ReachK ks s d) : d ∈ bfsKeys ks s := by
  induction h with
  | refl => exact bfs_start_mem
  | tail _ hadj ih => exact bfs_closed hs _ ih _ hadj

theorem bfsKeys_nodup {ks : List (ℕ × ℕ)} {s : ℕ} : (bfsKeys ks s).Nodup :=
  bfsFrom_inv.nodup

theorem bfsKeys_sub {ks : List (ℕ × ℕ)} {s : ℕ} (hs : s ∈ edgeNodes ks) :
    ∀ v ∈ bfsKeys ks s, v ∈ edgeNodes ks := by
  intro v hv
  rcases bfsFrom_inv.keys_sub v hv with rfl | h
  · exact hs
  · exact h

theorem lookupA_isSome {l : List (ℕ × List ℕ)} {k : ℕ} :
    (lookupA l k).isSome ↔ k ∈ keysOf l := by
  induction l with
  | nil => simp [lookupA, keysOf]
  | cons e t ih =>
      by_cases h : e.1 = k
      · rw [lookupA, List.find?_cons_of_pos _ (by simpa using h)]
        simp [keysOf, h]
      · rw [lookupA, List.find?_cons_of_neg _ (by simpa using h)]
        have : ((t.find? (fun e => e.1 == k)).map Prod.snd).isSome ↔ k ∈ keysOf t := ih
        rw [this]
        simp only [keysOf, List.map_cons, List.mem_cons]
        constructor
        · exact Or.inr
        · rintro (rfl | hk)
          · exact absurd rfl h
          · exact hk

theorem bfsIter_fst_prefix {adj : ℕ → List ℕ} :
    ∀ (n : ℕ) (st : BfsSt), ∃ t, (bfsIter adj n st).1 = st.1 ++ t := by
  intro n
  induction n with
  | zero => intro st; exact ⟨[], by simp [bfsIter]⟩
  | succ m ih =>
      intro st
      rcases ih (bfsRound adj st) with ⟨t, ht⟩
      refine ⟨(bfsRound adj st).2 ++ t, ?_⟩
      rw [bfsIter, ht, bfsRound_fst_eq]
      simp

/-- The BFS source keeps the trivial path `[s]`. -/
theorem lookupA_bfsFrom_self {ks : List (ℕ × ℕ)} {s : ℕ} :
    lookupA (bfsFrom ks s) s = some [s] := by
  unfold bfsFrom
  rcases bfsIter_fst_prefix ((edgeNodes ks).length + 1) ([(s, [s])], [(s, [s])]) with ⟨t, ht⟩
  rw [ht]
  rw [lookupA, List.cons_append, List.find?_cons_of_pos _ (by simp)]
  rfl

theorem connectedComponents_chars {ks : List (ℕ × ℕ)} :
    ∀ c ∈ connectedComponents ks, ∃ v ∈ edgeNodes ks, c = bfsKeys ks v := by
  unfold connectedComponents
  refine foldl_inv (fun comps => ∀ c ∈ comps, ∃ v ∈ edgeNodes ks, c = bfsKeys ks v) _ _ _
    (by intro c hc; cases hc) ?_
  intro comps v hv hcomps c hc
  split at hc
  · exact hcomps c hc
  · rcases List.mem_append.mp hc with hc | hc
    · exact hcomps c hc
    · simp at hc
      exact ⟨v, hv, hc⟩

theorem connectedComponents_ne_nil {ks : List (ℕ × ℕ)} (h : edgeNodes ks ≠ []) :
    connectedComponents ks ≠ [] := by
  unfold connectedComponents
  rcases hek : edgeNodes ks with _ | ⟨v, t⟩
  · exact absurd hek h
  · rw [List.foldl_cons]
    simp only [List.any_nil, Bool.false_eq_true, if_false, List.nil_append]
    refine foldl_inv (fun comps => comps ≠ []) _ _ _ (by simp) ?_
    intro comps u _ hne
    split
    · exact hne
    · simp

theorem pickLargest_mem (comps : List (List ℕ)) :
    pickLargest comps = [] ∨ pickLargest comps ∈ comps := by
  unfold pickLargest
  refine foldl_inv (fun best => best = [] ∨ best ∈ comps) _ _ _ (Or.inl rfl) ?_
  intro best c hc hbest
  split
  · exact Or.inr hc
  · exact hbest

theorem pickLargest_ne_nil {comps : List (List ℕ)} (h : comps ≠ [])
    (hall : ∀ c ∈ comps, c ≠ []) : pickLargest comps ≠ [] := by
  unfold pickLargest
  rcases comps with _ | ⟨c, t⟩
  · exact absurd rfl h
  · rw [List.foldl_cons]
    have hc0 : c ≠ [] := hall c (List.mem_cons_self _ _)
    have h1 : (if ([] : List ℕ).length < c.length then c else []) = c := by
      rw [if_pos]
      simpa [List.length_pos] using hc0
    rw [h1]
    refine foldl_inv (fun best => best ≠ []) _ _ _ hc0 ?_
    intro best b _ hbest
    split
    · rename_i hlt
      intro hb
      rw [hb] at hlt
      simp at hlt
    · exact hbest

theorem bfsKeys_ne_nil {ks : List (ℕ × ℕ)} {s : ℕ} : bfsKeys ks s ≠ [] :=
  List.ne_nil_of_mem bfs_start_mem

/-- The largest component is (for a graph with nodes) the BFS key set of one
of its members, all of which are edge endpoints. -/
theorem largest_cc_char {ks : List (ℕ × ℕ)} (h : edgeNodes ks ≠ []) :
    ∃ v ∈ edgeNodes ks, get_nodes_in_largest_connected_component ks = bfsKeys ks v := by
  have hmem : get_nodes_in_largest_connected_component ks ∈ connectedComponents ks := by
    rcases pickLargest_mem (connectedComponents ks) with hnil | hm
    · exfalso
      have hne : pickLargest (connectedComponents ks) ≠ [] := by
        refine pickLargest_ne_nil (connectedComponents_ne_nil h) ?_
        intro c hc
        rcases connectedComponents_chars c hc with ⟨v, _, rfl⟩
        exact bfsKeys_ne_nil
      exact hne hnil
    · exact hm
  exact connectedComponents_chars _ hmem

/-! ### Synchronizer loop lemmas -/

theorem stStep_length {M : Type} (ops : TransformOps M) (edges : List ((ℕ × ℕ) × M))
    (paths : List (ℕ × List ℕ)) (acc : List (Option M)) (d : ℕ) :
    (stStep ops edges paths acc d).length = acc.length := by
  unfold stStep
  rcases lookupA paths d with _ | p
  · rfl
  · exact List.length_set ..

theorem stStep_getElem_ne {M : Type} {ops : TransformOps M} {edges : List ((ℕ × ℕ) × M)}
    {paths : List (ℕ × List ℕ)} {acc : List (Option M)} {d i : ℕ} (h : d ≠ i) :
    (stStep ops edges paths acc d)[i]? = acc[i]? := by
  unfold stStep
  rcases lookupA paths d with _ | p
  · rfl
  · exact List.getElem?_set_ne h

theorem stFold_getElem_not_mem {M : Type} {ops : TransformOps M} {edges : List ((ℕ × ℕ) × M)}
    {paths : List (ℕ × List ℕ)} {i : ℕ} :
    ∀ {L : List ℕ} {acc : List (Option M)}, i ∉ L →
      (L.foldl (stStep ops edges paths) acc)[i]? = acc[i]? := by
  intro L
  induction L with
  | nil => intro acc _; rfl
  | cons e t ih =>
      intro acc hi
      rw [List.foldl_cons, ih (fun h => hi (List.mem_cons_of_mem _ h)),
        stStep_getElem_ne (fun h => hi (by rw [← h]; exact List.mem_cons_self _ _))]

theorem stFold_length {M : Type} {ops : TransformOps M} {edges : List ((ℕ × ℕ) × M)}
    {paths : List (ℕ × List ℕ)} {L : List ℕ} {acc : List (Option M)} :
    (L.foldl (stStep ops edges paths) acc).length = acc.length := by
  refine foldl_inv (fun x : List (Option M) => x.length = acc.length) _ _ _ rfl ?_
  intro y b _ hy
  rw [stStep_length, hy]

theorem stFold_getElem_mem {M : Type} {ops : TransformOps M} {edges : List ((ℕ × ℕ) × M)}
    {paths : List (ℕ × List ℕ)} {d : ℕ} :
    ∀ {L : List ℕ} {acc : List (Option M)}, L.Nodup → d ∈ L → d < acc.length →
      (L.foldl (stStep ops edges paths) acc)[d]? =
        match lookupA paths d with
        | some path => some (some (walkPath ops edges path))
        | none => acc[d]? := by
  intro L
  induction L with
  | nil => intro acc _ hd; cases hd
  | cons e t ih =>
      intro acc hnd hd hlen
      rcases List.mem_cons.mp hd with rfl | hd
      · have hnt : d ∉ t := (List.nodup_cons.mp hnd).1
        rw [List.foldl_cons, stFold_getElem_not_mem hnt]
        unfold stStep
        rcases lookupA paths d with _ | p
        · rfl
        · exact List.getElem?_set_self hlen
      · have hne : e ≠ d := by
          rintro rfl
          exact (List.nodup_cons.mp hnd).1 hd
        rw [List.foldl_cons, ih (List.nodup_cons.mp hnd).2 hd (by rw [stStep_length]; exact hlen),
          stStep_getElem_ne hne]

/-- The source-side walk equals the spec-side composition with the amended
step rule (the two step functions are definitionally the same). -/
theorem walkPath_eq_pathCompose {M : Type} (ops : TransformOps M)
    (edges : List ((ℕ × ℕ) × M)) (path : List ℕ) :
    walkPath ops edges path = pathCompose ops (stepAmended ops edges) path := rfl

theorem stAssemble_length {M : Type} (ops : TransformOps M) (edges : List ((ℕ × ℕ) × M)) :
    (stAssemble ops edges).length = maxNodeId (edges.map Prod.fst) + 1 := by
  rw [stAssemble]
  rcases hc : sortNodes (get_nodes_in_largest_connected_component (edges.map Prod.fst))
    with _ | ⟨o, r⟩
  · simp only [hc, List.length_replicate]
  · simp only [hc]
    rw [stFold_length, List.length_set, List.length_replicate]

/-- Member of the largest connected component: it is the BFS key set of one
of its members, every member is an edge endpoint, and BFS from any member
rediscovers the whole component. -/
theorem cc_mem_bfsKeys {ks : List (ℕ × ℕ)}
    (hcc : get_nodes_in_largest_connected_component ks ≠ []) :
    ∀ o ∈ get_nodes_in_largest_connected_component ks,
      (o ∈ edgeNodes ks ∧
        ∀ d ∈ get_nodes_in_largest_connected_component ks, d ∈ bfsKeys ks o) := by
  have hmem : get_nodes_in_largest_connected_component ks ∈ connectedComponents ks := by
    rcases pickLargest_mem (connectedComponents ks) with hnil | hm
    · exact absurd hnil hcc
    · exact hm
  rcases connectedComponents_chars _ hmem with ⟨v, hv, hchar⟩
  intro o ho
  rw [hchar] at ho
  have hoe : o ∈ edgeNodes ks := bfsKeys_sub hv o ho
  refine ⟨hoe, ?_⟩
  intro d hd
  rw [hchar] at hd
  have hvd : ReachK ks v d := bfs_sound hd
  have hvo : ReachK ks v o := bfs_sound ho
  exact bfs_complete hoe (ReachK_trans (ReachK_symm hvo) hvd)

/-! ### RANSAC lemmas -/

theorem setNone_length {P : Type} (draw : List ℕ) (est : List (Option P)) :
    (draw.foldl (fun l i => l.set i none) est).length = est.length := by
  refine foldl_inv (fun l : List (Option P) => l.length = est.length) _ _ _ rfl ?_
  intro y b _ hy
  rw [List.length_set, hy]

theorem acceptTrial_le {P S : Type} (st : RState P S) (aligned : List (Option P)) (aSb : S)
    (re te : Option ℚ) :
    (acceptTrial st aligned aSb re te).bestTrans ≤ st.bestTrans ∧
      (acceptTrial st aligned aSb re te).bestRot ≤ st.bestRot := by
  unfold acceptTrial
  split
  · rename_i hcond
    rcases Bool.and_eq_true .. ▸ hcond with ⟨hte, hre⟩
    rcases te with _ | qt
    · cases hte
    · rcases re with _ | qr
      · cases hre
      · simp only [floatLe, decide_eq_true_eq] at hte hre
        simp only [Option.map_some', Option.getD_some]
        exact ⟨hte, hre⟩
  · exact ⟨le_refl _, le_refl _⟩

theorem acceptTrial_pos {P S : Type} (st : RState P S) (aligned : List (Option P)) (aSb : S)
    {re te : Option ℚ} {qr qt : ℚ} (hre : re = some qr) (hte : te = some qt)
    (h1 : (qt : WithTop ℚ) ≤ st.bestTrans) (h2 : (qr : WithTop ℚ) ≤ st.bestRot) :
    acceptTrial st aligned aSb re te =
      ⟨some aligned, some aSb, (qt : WithTop ℚ), (qr : WithTop ℚ)⟩ := by
  subst hre hte
  unfold acceptTrial
  rw [if_pos]
  · rfl
  · simp only [floatLe, decide_eq_true_eq, Bool.and_eq_true]
    exact ⟨h1, h2⟩

theorem acceptTrial_neg {P S : Type} (st : RState P S) (aligned : List (Option P)) (aSb : S)
    {re te : Option ℚ}
    (h : ∀ qr qt, re = some qr → te = some qt →
      ¬((qt : WithTop ℚ) ≤ st.bestTrans ∧ (qr : WithTop ℚ) ≤ st.bestRot)) :
    acceptTrial st aligned aSb re te = st := by
  unfold acceptTrial
  rw [if_neg]
  rcases te with _ | qt
  · simp [floatLe]
  · rcases re with _ | qr
    · simp [floatLe]
    · simp only [floatLe, Bool.and_eq_true, decide_eq_true_eq, not_and]
      intro h1 h2
      exact h qr qt rfl rfl ⟨h1, h2⟩

theorem ransacTrial_ok_le {P S : Type}
    {fit : List (Option P) → List (Option P) → List (Option P) × S}
    {rotAngle transDist : P → P → ℚ} {ref est : List (Option P)} {draw : List ℕ}
    {st st' : RState P S}
    (h : ransacTrial fit rotAngle transDist ref est draw st = Except.ok st') :
    st'.bestTrans ≤ st.bestTrans ∧ st'.bestRot ≤ st.bestRot := by
  unfold ransacTrial at h
  dsimp only at h
  rcases halign : alignChecked fit ref (draw.foldl (fun l i => l.set i none) est)
    with e | res
  · rw [halign] at h
    cases h
  · rw [halign] at h
    simp only [Except.map, Except.ok.injEq] at h
    rw [← h]
    exact acceptTrial_le ..

theorem ransacLoop_succ {P S : Type}
    (fit : List (Option P) → List (Option P) → List (Option P) × S)
    (rotAngle transDist : P → P → ℚ) (ref est : List (Option P)) (draws : ℕ → List ℕ)
    (m : ℕ) :
    ransacLoop fit rotAngle transDist ref est draws (m + 1) =
      (ransacLoop fit rotAngle transDist ref est draws m).bind
        (fun st => ransacTrial fit rotAngle transDist ref est (draws m) st) := by
  unfold ransacLoop
  rw [List.range_succ, List.foldlM_append]
  rcases (List.range m).foldlM
      (fun st t => ransacTrial fit rotAngle transDist ref est (draws t) st)
      (initRState P S) with e | st
  · rfl
  · simp only [List.foldlM_cons, List.foldlM_nil, bind_pure]
    rfl

theorem ransacLoop_le_add {P S : Type}
    {fit : List (Option P) → List (Option P) → List (Option P) × S}
    {rotAngle transDist : P → P → ℚ} {ref est : List (Option P)} {draws : ℕ → List ℕ}
    {t : ℕ} :
    ∀ (k : ℕ) {st st' : RState P S},
      ransacLoop fit rotAngle transDist ref est draws t = Except.ok st →
      ransacLoop fit rotAngle transDist ref est draws (t + k) = Except.ok st' →
      st'.bestTrans ≤ st.bestTrans ∧ st'.bestRot ≤ st.bestRot := by
  intro k
  induction k with
  | zero =>
      intro st st' ht ht'
      rw [Nat.add_zero, ht] at ht'
      cases ht'
      exact ⟨le_refl _, le_refl _⟩
  | succ m ih =>
      intro st st' ht ht'
      have heq : t + (m + 1) = (t + m) + 1 := rfl
      rw [heq, ransacLoop_succ] at ht'
      rcases hmid : ransacLoop fit rotAngle transDist ref est draws (t + m) with e | mid
      · rw [hmid] at ht'
        cases ht'
      · rw [hmid] at ht'
        simp only [Except.bind] at ht'
        have h1 := ih ht hmid
        have h2 := ransacTrial_ok_le ht'
        exact ⟨le_trans h2.1 h1.1, le_trans h2.2 h1.2⟩

theorem ransacLoop_le {P S : Type}
    {fit : List (Option P) → List (Option P) → List (Option P) × S}
    {rotAngle transDist : P → P → ℚ} {ref est : List (Option P)} {draws : ℕ → List ℕ}
    {t t' : ℕ} (hle : t ≤ t') {st st' : RState P S}
    (ht : ransacLoop fit rotAngle transDist ref est draws t = Except.ok st)
    (ht' : ransacLoop fit rotAngle transDist ref est draws t' = Except.ok st') :
    st'.bestTrans ≤ st.bestTrans ∧ st'.bestRot ≤ st.bestRot := by
  obtain ⟨k, rfl⟩ := Nat.exists_eq_add_of_le hle
  exact ransacLoop_le_add k ht ht'

theorem alignChecked_mismatch {P S : Type}
    (fit : List (Option P) → List (Option P) → List (Option P) × S)
    {a b : List (Option P)} (h : a.length ≠ b.length) :
    alignChecked fit a b = Except.error AlignError.indexMismatch := by
  unfold alignChecked
  rw [if_neg h]

theorem ransacTrial_mismatch {P S : Type}
    (fit : List (Option P) → List (Option P) → List (Option P) × S)
    (rotAngle transDist : P → P → ℚ) {ref est : List (Option P)} (draw : List ℕ)
    (st : RState P S) (h : ref.length ≠ est.length) :
    ransacTrial fit rotAngle transDist ref est draw st =
      Except.error AlignError.indexMismatch := by
  unfold ransacTrial
  dsimp only
  rw [alignChecked_mismatch fit (by rw [setNone_length]; exact h)]
  rfl

theorem ransacLoop_mismatch {P S : Type}
    (fit : List (Option P) → List (Option P) → List (Option P) × S)
    (rotAngle transDist : P → P → ℚ) {ref est : List (Option P)} (draws : ℕ → List ℕ)
    {num_iters : ℕ} (hn : 0 < num_iters) (h : ref.length ≠ est.length) :
    ransacLoop fit rotAngle transDist ref est draws num_iters =
      Except.error AlignError.indexMismatch := by
  rcases num_iters with _ | m
  · exact absurd hn (by omega)
  · unfold ransacLoop
    rw [List.range_succ_eq_map, List.foldlM_cons, ransacTrial_mismatch fit rotAngle transDist _ _ h]
    rfl

theorem errsFold_eq {P : Type} (rotAngle transDist : P → P → ℚ) :
    ∀ (l : List (Option P × Option P)) (acc : List ℚ × List ℚ),
      l.foldl
        (fun (acc : List ℚ × List ℚ) ab =>
          match ab.1, ab.2 with
          | some aTi, some aTi' => (acc.1 ++ [rotAngle aTi aTi'], acc.2 ++ [transDist aTi aTi'])
          | _, _ => acc)
        acc =
      (acc.1 ++ l.filterMap
          (fun ab =>
            match ab.1, ab.2 with
            | some a, some b => some (rotAngle a b)
            | _, _ => none),
        acc.2 ++ l.filterMap
          (fun ab =>
            match ab.1, ab.2 with
            | some a, some b => some (transDist a b)
            | _, _ => none)) := by
  intro l
  induction l with
  | nil => intro acc; simp
  | cons ab t ih =>
      intro acc
      obtain ⟨x, y⟩ := ab
      rcases x with _ | a
      · rcases y with _ | b
        · simpa [List.filterMap_cons] using ih acc
        · simpa [List.filterMap_cons] using ih acc
      · rcases y with _ | b
        · simpa [List.filterMap_cons] using ih acc
        · simp only [List.foldl_cons, List.filterMap_cons]
          rw [ih]
          simp

/-- `compute_pose_errors_3d` computes exactly the means of the jointly-valid
pointwise errors. -/
theorem compute_pose_errors_3d_eq {P : Type} (rotAngle transDist : P → P → ℚ)
    (ref est : List (Option P)) :
    compute_pose_errors_3d rotAngle transDist ref est =
      (npMean (jointErrors rotAngle ref est), npMean (jointErrors transDist ref est)) := by
  unfold compute_pose_errors_3d jointErrors
  rw [errsFold_eq]
  simp

theorem forall_zip_iff_getElem {α β : Type _} {Q : α × β → Prop} :
    ∀ (l1 : List α) (l2 : List β),
      (∀ ab ∈ l1.zip l2, Q ab) ↔
        ∀ (i : ℕ) (a : α) (b : β), l1[i]? = some a → l2[i]? = some b → Q (a, b) := by
  intro l1
  induction l1 with
  | nil =>
      intro l2
      constructor
      · intro _ i a b ha _
        simp at ha
      · intro _ ab hab
        simp at hab
  | cons x t ih =>
      intro l2
      cases l2 with
      | nil =>
          constructor
          · intro _ i a b _ hb
            simp at hb
          · intro _ ab hab
            simp at hab
      | cons y u =>
          rw [List.zip_cons_cons]
          constructor
          · intro h i a b ha hb
            cases i with
            | zero =>
                simp only [List.getElem?_cons_zero, Option.some.injEq] at ha hb
                subst ha
                subst hb
                exact h _ (List.mem_cons_self _ _)
            | succ j =>
                exact (ih u).mp (fun ab hab => h ab (List.mem_cons_of_mem _ hab)) j a b
                  (by simpa using ha) (by simpa using hb)
          · intro h ab hab
            rcases List.mem_cons.mp hab with rfl | hab
            · exact h 0 x y (by simp) (by simp)
            · exact (ih u).mpr
                (fun j a b ha hb => h (j + 1) a b (by simpa using ha) (by simpa using hb))
                ab hab

/-- No jointly-valid index exactly when the joint error list is empty. -/
theorem jointErrors_eq_nil_iff {P : Type} (f : P → P → ℚ) (ref est : List (Option P)) :
    jointErrors f ref est = [] ↔
      ∀ (i : ℕ) (a b : P), ref[i]? = some (some a) → est[i]? = some (some b) → False := by
  unfold jointErrors
  rw [List.filterMap_eq_nil_iff]
  rw [forall_zip_iff_getElem]
  constructor
  · intro h i a b ha hb
    have := h i (some a) (some b) ha hb
    simp at this
  · intro h i oa ob ha hb
    rcases oa with _ | a
    · rfl
    · rcases ob with _ | b
      · rfl
      · exact absurd (h i a b ha hb) not_false

/-! ## Helper: unfolded synchronizer core -/

theorem stAssemble_eq {M : Type} (ops : TransformOps M) (edges : List ((ℕ × ℕ) × M))
    {origin : ℕ} {rest : List ℕ}
    (hc : sortNodes (get_nodes_in_largest_connected_component (edges.map Prod.fst)) =
      origin :: rest) :
    stAssemble ops edges =
      rest.foldl (stStep ops edges (bfsFrom (edges.map Prod.fst) origin))
        ((List.replicate (maxNodeId (edges.map Prod.fst) + 1) none).set origin
          (some ops.ident)) := by
  rw [stAssemble]
  simp only [hc]

/-! ## Claim theorems -/

/-- Claim C1, counterexample: for the single canonical edge `(0,1)` storing
the quarter turn, the synchronizer stores the INVERSE (transpose) of the
edge at node 1, while the claimed procedure ("use it directly when a<b")
yields the edge itself; the two disagree. -/
theorem C1_counterexample :
    greedily_construct_st_Sim2 Mat2.ops eC1 = some (stAssemble Mat2.ops eC1) ∧
    (stAssemble Mat2.ops eC1)[1]? = some (some (Mat2.transpose rot90)) ∧
    specPoseClaimed Mat2.ops eC1 1 = some rot90 ∧
    (stAssemble Mat2.ops eC1)[1]? ≠ some (specPoseClaimed Mat2.ops eC1 1) := by
  refine ⟨by decide, by decide, by decide, by decide⟩

/-- Claim C1 (amended): for every connected input graph of relative edges at
canonical keys `(i1,i2)`, `i1<i2`, the synchronizer computes each node `d`
of the (sorted) component by walking the BFS shortest path from the origin
in consecutive pairs `(a,b)`, fetching the edge at the canonical key, using
its INVERSE when `a<b` and the edge DIRECTLY when `a>b`, and accumulating by
composition in path order. -/
theorem C1_path_composition {M : Type} (ops : TransformOps M) (edges : List ((ℕ × ℕ) × M))
    (hconn : GraphConnected (edges.map Prod.fst)) :
    ∀ d ∈ sortNodes (get_nodes_in_largest_connected_component (edges.map Prod.fst)),
      (stAssemble ops edges)[d]? = some (specPoseAmended ops edges d) := by
  intro d hd
  rcases hc : sortNodes (get_nodes_in_largest_connected_component (edges.map Prod.fst))
    with _ | ⟨o, r⟩
  · rw [hc] at hd
    cases hd
  · have hccne : get_nodes_in_largest_connected_component (edges.map Prod.fst) ≠ [] := by
      intro h0
      rw [h0] at hc
      simp [sortNodes] at hc
    have hsorted := sorted_sortNodes (get_nodes_in_largest_connected_component
      (edges.map Prod.fst))
    rw [hc] at hsorted hd
    have homem : o ∈ get_nodes_in_largest_connected_component (edges.map Prod.fst) :=
      mem_sortNodes.mp (by rw [hc]; exact List.mem_cons_self _ _)
    obtain ⟨hoe, hbfs⟩ := cc_mem_bfsKeys hccne o homem
    have holt : o < maxNodeId (edges.map Prod.fst) + 1 :=
      Nat.lt_succ_of_le (mem_edgeNodes_le hoe)
    have hso : specOrigin (edges.map Prod.fst) = o := by
      unfold specOrigin
      rw [hc]
      rfl
    rw [stAssemble_eq ops edges hc]
    rcases List.mem_cons.mp hd with rfl | hdr
    · rw [stFold_getElem_not_mem (head_not_mem_tail hsorted),
        List.getElem?_set_self (by rw [List.length_replicate]; exact holt)]
      unfold specPoseAmended specShortestPath
      rw [hso, lookupA_bfsFrom_self]
      rfl
    · have hdcc : d ∈ get_nodes_in_largest_connected_component (edges.map Prod.fst) :=
        mem_sortNodes.mp (by rw [hc]; exact List.mem_cons_of_mem _ hdr)
      have hde : d ∈ edgeNodes (edges.map Prod.fst) := (cc_mem_bfsKeys hccne d hdcc).1
      have hdlt : d < maxNodeId (edges.map Prod.fst) + 1 :=
        Nat.lt_succ_of_le (mem_edgeNodes_le hde)
      have hnd : r.Nodup := by
        have := nodup_sortNodes (get_nodes_in_largest_connected_component (edges.map Prod.fst))
        rw [hc] at this
        exact (List.nodup_cons.mp this).2
      have hone : o ≠ d := fun hh => head_not_mem_tail hsorted (hh ▸ hdr)
      rw [stFold_getElem_mem hnd hdr
        (by rw [List.length_set, List.length_replicate]; exact hdlt)]
      unfold specPoseAmended specShortestPath
      rw [hso]
      rcases hlk : lookupA (bfsFrom (edges.map Prod.fst) o) d with _ | p
      · simp only [Option.map_none']
        rw [List.getElem?_set_ne hone, List.getElem?_replicate, if_pos hdlt]
      · simp only [Option.map_some']
        rw [walkPath_eq_pathCompose]

/-- Witness for the amended claim C1 at the concrete connected one-edge
graph, destination node 1. -/
theorem C1_path_composition_witness :
    (stAssemble Mat2.ops eC1)[1]? = some (specPoseAmended Mat2.ops eC1 1) :=
  C1_path_composition Mat2.ops eC1 (by decide) 1 (by decide)

/-- Claim C4: for every non-empty edge set the synchronizer picks as origin
the smallest node id of the largest connected component, gives it the
identity pose, gives every component node exactly one non-null pose, and
leaves a null pose at every other index of the output. -/
theorem C4_component_coverage {M : Type} (ops : TransformOps M)
    (edges : List ((ℕ × ℕ) × M)) (h : edges ≠ []) :
    (specOrigin (edges.map Prod.fst) ∈
        get_nodes_in_largest_connected_component (edges.map Prod.fst) ∧
      ∀ x ∈ get_nodes_in_largest_connected_component (edges.map Prod.fst),
        specOrigin (edges.map Prod.fst) ≤ x) ∧
    (stAssemble ops edges)[specOrigin (edges.map Prod.fst)]? = some (some ops.ident) ∧
    (∀ d ∈ get_nodes_in_largest_connected_component (edges.map Prod.fst),
      ∃ m, (stAssemble ops edges)[d]? = some (some m)) ∧
    (∀ i < (stAssemble ops edges).length,
      i ∉ get_nodes_in_largest_connected_component (edges.map Prod.fst) →
      (stAssemble ops edges)[i]? = some none) := by
  have hksne : edges.map Prod.fst ≠ [] := by
    intro h0
    exact h (List.map_eq_nil_iff.mp h0)
  have hene : edgeNodes (edges.map Prod.fst) ≠ [] := by
    rcases hks : edges.map Prod.fst with _ | ⟨p, t⟩
    · exact absurd hks hksne
    · exact List.ne_nil_of_mem (mem_edgeNodes.mpr ⟨p, List.mem_cons_self _ _, Or.inl rfl⟩)
  obtain ⟨v, hv, hchar⟩ := largest_cc_char hene
  have hccne : get_nodes_in_largest_connected_component (edges.map Prod.fst) ≠ [] := by
    rw [hchar]
    exact bfsKeys_ne_nil
  rcases hc : sortNodes (get_nodes_in_largest_connected_component (edges.map Prod.fst))
    with _ | ⟨o, r⟩
  · exfalso
    rcases hcc0 : get_nodes_in_largest_connected_component (edges.map Prod.fst)
      with _ | ⟨x, t⟩
    · exact hccne hcc0
    · have : x ∈ sortNodes (get_nodes_in_largest_connected_component (edges.map Prod.fst)) :=
        mem_sortNodes.mpr (by rw [hcc0]; exact List.mem_cons_self _ _)
      rw [hc] at this
      cases this
  · have hsorted := sorted_sortNodes (get_nodes_in_largest_connected_component
      (edges.map Prod.fst))
    rw [hc] at hsorted
    have homem : o ∈ get_nodes_in_largest_connected_component (edges.map Prod.fst) :=
      mem_sortNodes.mp (by rw [hc]; exact List.mem_cons_self _ _)
    obtain ⟨hoe, hbfs⟩ := cc_mem_bfsKeys hccne o homem
    have holt : o < maxNodeId (edges.map Prod.fst) + 1 :=
      Nat.lt_succ_of_le (mem_edgeNodes_le hoe)
    have hso : specOrigin (edges.map Prod.fst) = o := by
      unfold specOrigin
      rw [hc]
      rfl
    have hidelem : (stAssemble ops edges)[o]? = some (some ops.ident) := by
      rw [stAssemble_eq ops edges hc, stFold_getElem_not_mem (head_not_mem_tail hsorted),
        List.getElem?_set_self (by rw [List.length_replicate]; exact holt)]
    refine ⟨⟨hso ▸ homem, ?_⟩, hso ▸ hidelem, ?_, ?_⟩
    · intro x hx
      rw [hso]
      exact head_le_of_sorted hsorted x (by rw [← hc]; exact mem_sortNodes.mpr hx)
    · intro d hd
      have hds : d ∈ o :: r := by rw [← hc]; exact mem_sortNodes.mpr hd
      rcases List.mem_cons.mp hds with rfl | hdr
      · exact ⟨ops.ident, hidelem⟩
      · have hde : d ∈ edgeNodes (edges.map Prod.fst) := (cc_mem_bfsKeys hccne d hd).1
        have hdlt : d < maxNodeId (edges.map Prod.fst) + 1 :=
          Nat.lt_succ_of_le (mem_edgeNodes_le hde)
        have hnd : r.Nodup := by
          have := nodup_sortNodes (get_nodes_in_largest_connected_component
            (edges.map Prod.fst))
          rw [hc] at this
          exact (List.nodup_cons.mp this).2
        have hdk : d ∈ bfsKeys (edges.map Prod.fst) o := hbfs d hd
        have hlk : (lookupA (bfsFrom (edges.map Prod.fst) o) d).isSome :=
          lookupA_isSome.mpr hdk
        rcases hp : lookupA (bfsFrom (edges.map Prod.fst) o) d with _ | p
        · rw [hp] at hlk
          cases hlk
        · refine ⟨walkPath ops edges p, ?_⟩
          rw [stAssemble_eq ops edges hc, stFold_getElem_mem hnd hdr
            (by rw [List.length_set, List.length_replicate]; exact hdlt), hp]
    · intro i hilen hicc
      have hio : o ≠ i := fun hh => hicc (hh ▸ homem)
      have hir : i ∉ r := fun hh =>
        hicc (mem_sortNodes.mp (by rw [hc]; exact List.mem_cons_of_mem _ hh))
      have hilt : i < maxNodeId (edges.map Prod.fst) + 1 := by
        rw [stAssemble_length] at hilen
        exact hilen
      rw [stAssemble_eq ops edges hc, stFold_getElem_not_mem hir,
        List.getElem?_set_ne hio, List.getElem?_replicate, if_pos hilt]

/-- Witness for claim C4 at the concrete one-edge graph. -/
theorem C4_component_coverage_witness :
    (specOrigin (eC1.map Prod.fst) ∈
        get_nodes_in_largest_connected_component (eC1.map Prod.fst) ∧
      ∀ x ∈ get_nodes_in_largest_connected_component (eC1.map Prod.fst),
        specOrigin (eC1.map Prod.fst) ≤ x) ∧
    (stAssemble Mat2.ops eC1)[specOrigin (eC1.map Prod.fst)]? = some (some Mat2.ops.ident) ∧
    (∀ d ∈ get_nodes_in_largest_connected_component (eC1.map Prod.fst),
      ∃ m, (stAssemble Mat2.ops eC1)[d]? = some (some m)) ∧
    (∀ i < (stAssemble Mat2.ops eC1).length,
      i ∉ get_nodes_in_largest_connected_component (eC1.map Prod.fst) →
      (stAssemble Mat2.ops eC1)[i]? = some none) :=
  C4_component_coverage Mat2.ops eC1 (by decide)

/-- Claim C8, counterexample: on an empty edge set the rotation-only
synchronizer variant `greedily_construct_st` raises (Python
`ValueError: max() arg is an empty sequence`), rather than returning a
null result. -/
theorem C8_counterexample :
    greedily_construct_st Mat2.ops ([] : List ((ℕ × ℕ) × Mat2)) =
      Except.error SyncError.valueError := by decide

/-- Claim C8 (amended): the Sim(2) pose synchronizer
`greedily_construct_st_Sim2` returns a null result on every empty edge set;
the rotation-only variant `greedily_construct_st` instead raises a
`ValueError` there. -/
theorem C8_empty_edges_null {M : Type} (ops : TransformOps M) :
    greedily_construct_st_Sim2 ops ([] : List ((ℕ × ℕ) × M)) = none := rfl

/-- Claim C10: for every non-empty edge set both synchronizer variants
return a pose list of length exactly `max node id + 1`; an isolated node
with a larger id has no slot. -/
theorem C10_output_length {M : Type} (ops : TransformOps M) (edges : List ((ℕ × ℕ) × M))
    (h : edges ≠ []) :
    greedily_construct_st_Sim2 ops edges = some (stAssemble ops edges) ∧
    greedily_construct_st ops edges = Except.ok (stAssemble ops edges) ∧
    (stAssemble ops edges).length = maxNodeId (edges.map Prod.fst) + 1 := by
  have hne : ¬(edges.isEmpty = true) := fun hh => h (List.isEmpty_iff.mp hh)
  refine ⟨?_, ?_, stAssemble_length ops edges⟩
  · unfold greedily_construct_st_Sim2
    rw [if_neg hne]
  · unfold greedily_construct_st
    rw [if_neg hne]

/-- Witness for claim C10 at the concrete one-edge graph. -/
theorem C10_output_length_witness :
    greedily_construct_st_Sim2 Mat2.ops eC1 = some (stAssemble Mat2.ops eC1) ∧
    greedily_construct_st Mat2.ops eC1 = Except.ok (stAssemble Mat2.ops eC1) ∧
    (stAssemble Mat2.ops eC1).length = maxNodeId (eC1.map Prod.fst) + 1 :=
  C10_output_length Mat2.ops eC1 (by decide)

/-- Claim C2: the best (rotation, translation) errors start at
`(+inf, +inf)`; a candidate is accepted exactly when both its errors
compare `<=` against the current bests (never on NaN); and across the trial
loop both best errors are non-increasing. -/
theorem C2_joint_dominance {P S : Type}
    (fit : List (Option P) → List (Option P) → List (Option P) × S)
    (rotAngle transDist : P → P → ℚ) (ref est : List (Option P)) (draws : ℕ → List ℕ)
    {t t' : ℕ} (hle : t ≤ t') {st st' : RState P S}
    (ht : ransacLoop fit rotAngle transDist ref est draws t = Except.ok st)
    (ht' : ransacLoop fit rotAngle transDist ref est draws t' = Except.ok st') :
    (initRState P S).bestTrans = ⊤ ∧ (initRState P S).bestRot = ⊤ ∧
    (∀ (s : RState P S) (aligned : List (Option P)) (aSb : S) (qr qt : ℚ),
      (qt : WithTop ℚ) ≤ s.bestTrans → (qr : WithTop ℚ) ≤ s.bestRot →
      acceptTrial s aligned aSb (some qr) (some qt) =
        ⟨some aligned, some aSb, (qt : WithTop ℚ), (qr : WithTop ℚ)⟩) ∧
    (∀ (s : RState P S) (aligned : List (Option P)) (aSb : S) (re te : Option ℚ),
      (∀ qr qt, re = some qr → te = some qt →
        ¬((qt : WithTop ℚ) ≤ s.bestTrans ∧ (qr : WithTop ℚ) ≤ s.bestRot)) →
      acceptTrial s aligned aSb re te = s) ∧
    st'.bestTrans ≤ st.bestTrans ∧ st'.bestRot ≤ st.bestRot := by
  refine ⟨rfl, rfl, ?_, ?_, (ransacLoop_le hle ht ht').1, (ransacLoop_le hle ht ht').2⟩
  · intro s aligned aSb qr qt h1 h2
    exact acceptTrial_pos s aligned aSb rfl rfl h1 h2
  · intro s aligned aSb re te hno
    exact acceptTrial_neg s aligned aSb hno

/-- Witness for claim C2 with the trivial aligner at zero trials. -/
theorem C2_joint_dominance_witness :
    (initRState Unit Unit).bestTrans = ⊤ ∧ (initRState Unit Unit).bestRot = ⊤ ∧
    (∀ (s : RState Unit Unit) (aligned : List (Option Unit)) (aSb : Unit) (qr qt : ℚ),
      (qt : WithTop ℚ) ≤ s.bestTrans → (qr : WithTop ℚ) ≤ s.bestRot →
      acceptTrial s aligned aSb (some qr) (some qt) =
        ⟨some aligned, some aSb, (qt : WithTop ℚ), (qr : WithTop ℚ)⟩) ∧
    (∀ (s : RState Unit Unit) (aligned : List (Option Unit)) (aSb : Unit) (re te : Option ℚ),
      (∀ qr qt, re = some qr → te = some qt →
        ¬((qt : WithTop ℚ) ≤ s.bestTrans ∧ (qr : WithTop ℚ) ≤ s.bestRot)) →
      acceptTrial s aligned aSb re te = s) ∧
    (initRState Unit Unit).bestTrans ≤ (initRState Unit Unit).bestTrans ∧
    (initRState Unit Unit).bestRot ≤ (initRState Unit Unit).bestRot :=
  C2_joint_dominance unitFit zeroErr zeroErr [] [] noDraws (Nat.le_refl 0) rfl rfl

/-- Claim C3: with `V` the indices where the estimate is present and
`k = ceil(delete_frac * |V|)`, if `|V| - k <= 3` the aligner skips the
RANSAC loop entirely (the result is one closed-form fit of the full lists
and is independent of the iteration count and of the random draws);
otherwise the result is that of the RANSAC loop run for `num_iters`
trials, where each further iteration count performs exactly one more
trial. -/
theorem C3_degenerate_fallback {P S : Type}
    (fit : List (Option P) → List (Option P) → List (Option P) × S)
    (rotAngle transDist : P → P → ℚ) (draws draws' : ℕ → List ℕ) (num_iters : ℕ)
    (delete_frac : ℚ) (ref est : List (Option P)) :
    ((((validIdxs est).length : ℤ) - ⌈delete_frac * ((validIdxs est).length : ℚ)⌉ ≤ 3 →
      ∀ n n' : ℕ,
        ransac_align_poses_sim3_ignore_missing fit rotAngle transDist draws n delete_frac
            ref est =
          (alignChecked fit ref est).map (fun res => (some res.1, some res.2)) ∧
        ransac_align_poses_sim3_ignore_missing fit rotAngle transDist draws n delete_frac
            ref est =
          ransac_align_poses_sim3_ignore_missing fit rotAngle transDist draws' n'
            delete_frac ref est)) ∧
    (¬(((validIdxs est).length : ℤ) - ⌈delete_frac * ((validIdxs est).length : ℚ)⌉ ≤ 3) →
      ransac_align_poses_sim3_ignore_missing fit rotAngle transDist draws num_iters
          delete_frac ref est =
        (ransacLoop fit rotAngle transDist ref est draws num_iters).map
          (fun st => (st.bestAligned, st.bestS)) ∧
      ∀ m, ransacLoop fit rotAngle transDist ref est draws (m + 1) =
        (ransacLoop fit rotAngle transDist ref est draws m).bind
          (fun st => ransacTrial fit rotAngle transDist ref est (draws m) st)) := by
  constructor
  · intro hcond n n'
    constructor
    · unfold ransac_align_poses_sim3_ignore_missing
      rw [if_pos hcond]
    · unfold ransac_align_poses_sim3_ignore_missing
      rw [if_pos hcond, if_pos hcond]
  · intro hcond
    constructor
    · unfold ransac_align_poses_sim3_ignore_missing
      rw [if_neg hcond]
    · intro m
      exact ransacLoop_succ fit rotAngle transDist ref est draws m

/-- Witness for claim C3 on an estimate list with no valid entries (so the
degenerate branch is taken): the result is the single closed-form fit, for
any iteration counts and draw streams. -/
theorem C3_degenerate_fallback_witness :
    ransac_align_poses_sim3_ignore_missing unitFit zeroErr zeroErr noDraws 5
        DEFAULT_DELETE_FRAC [] [] =
      (alignChecked unitFit [] []).map (fun res => (some res.1, some res.2)) ∧
    ransac_align_poses_sim3_ignore_missing unitFit zeroErr zeroErr noDraws 5
        DEFAULT_DELETE_FRAC [] [] =
      ransac_align_poses_sim3_ignore_missing unitFit zeroErr zeroErr zeroDraws 7
        DEFAULT_DELETE_FRAC [] [] :=
  (C3_degenerate_fallback unitFit zeroErr zeroErr noDraws zeroDraws 5 DEFAULT_DELETE_FRAC
      [] []).1
    (by simp [validIdxs]) 5 7

/-- Claim C5: pose lists of unequal length make the aligner fail with the
(spec-modelled, externally raised) `IndexMismatch` before any fitting, on
both the degenerate branch and (for a positive iteration count, at its
first trial) the RANSAC branch. -/
theorem C5_length_mismatch {P S : Type}
    (fit : List (Option P) → List (Option P) → List (Option P) × S)
    (rotAngle transDist : P → P → ℚ) (draws : ℕ → List ℕ) (num_iters : ℕ)
    (delete_frac : ℚ) (ref est : List (Option P)) (h : ref.length ≠ est.length)
    (hn : 0 < num_iters) :
    ransac_align_poses_sim3_ignore_missing fit rotAngle transDist draws num_iters
        delete_frac ref est =
      Except.error AlignError.indexMismatch := by
  unfold ransac_align_poses_sim3_ignore_missing
  dsimp only
  by_cases hcond :
    ((validIdxs est).length : ℤ) - ⌈delete_frac * ((validIdxs est).length : ℚ)⌉ ≤ 3
  · rw [if_pos hcond, alignChecked_mismatch fit h]
    rfl
  · rw [if_neg hcond, ransacLoop_mismatch fit rotAngle transDist draws hn h]
    rfl

/-- Witness for claim C5 at concrete mismatched lists. -/
theorem C5_length_mismatch_witness :
    ransac_align_poses_sim3_ignore_missing unitFit zeroErr zeroErr noDraws 1
        DEFAULT_DELETE_FRAC [] [some ()] =
      Except.error AlignError.indexMismatch :=
  C5_length_mismatch unitFit zeroErr zeroErr noDraws 1 DEFAULT_DELETE_FRAC [] [some ()]
    (by decide) (by decide)

/-- Claim C7: for equal-length pose lists, `compute_pose_errors_3d` returns
exactly the arithmetic means of the pointwise rotation and translation
errors over the indices where both entries are present (never substituting
zero for a missing one), and NaN (`none`) for both means when no jointly
valid index exists. -/
theorem C7_mean_errors {P : Type} (rotAngle transDist : P → P → ℚ)
    (ref est : List (Option P)) (h : ref.length = est.length) :
    compute_pose_errors_3d rotAngle transDist ref est =
      (npMean (jointErrors rotAngle ref est), npMean (jointErrors transDist ref est)) ∧
    npMean [] = none ∧
    (∀ l : List ℚ, l ≠ [] → npMean l = some (l.sum / l.length)) ∧
    (jointErrors rotAngle ref est = [] ↔
      ∀ (i : ℕ) (a b : P), ref[i]? = some (some a) → est[i]? = some (some b) → False) ∧
    (jointErrors transDist ref est = [] ↔
      ∀ (i : ℕ) (a b : P), ref[i]? = some (some a) → est[i]? = some (some b) → False) := by
  refine ⟨compute_pose_errors_3d_eq rotAngle transDist ref est, rfl, ?_,
    jointErrors_eq_nil_iff rotAngle ref est, jointErrors_eq_nil_iff transDist ref est⟩
  intro l hl
  unfold npMean
  rw [if_neg (fun hh => hl (List.isEmpty_iff.mp hh))]

/-- Witness for claim C7 at a concrete pair with one jointly-missing index. -/
theorem C7_mean_errors_witness :
    compute_pose_errors_3d zeroErr zeroErr [some (), none] [some (), some ()] =
      (npMean (jointErrors zeroErr [some (), none] [some (), some ()]),
        npMean (jointErrors zeroErr [some (), none] [some (), some ()])) ∧
    npMean [] = none ∧
    (∀ l : List ℚ, l ≠ [] → npMean l = some (l.sum / l.length)) ∧
    (jointErrors zeroErr [some (), none] [some (), some ()] = [] ↔
      ∀ (i : ℕ) (a b : Unit), [some (), none][i]? = some (some a) →
        [some (), some ()][i]? = some (some b) → False) ∧
    (jointErrors zeroErr [some (), none] [some (), some ()] = [] ↔
      ∀ (i : ℕ) (a b : Unit), [some (), none][i]? = some (some a) →
        [some (), some ()][i]? = some (some b) → False) :=
  C7_mean_errors zeroErr zeroErr [some (), none] [some (), some ()] rfl

end Salve
